import Mathlib

/-
Verification development for the SOCI value-marshalling core.

Modelled source files:
  - src/include/private/firebird/common.h
      str2dec, parse_decimal, round_for_isc, cond_to_isc, to_isc,
      cond_from_isc, from_isc, format_decimal
  - src/src/backends/postgresql/vector-use-type.cpp
      postgresql_vector_use_type_backend::pre_use, size, full_size, clean_up

Modelling conventions:
  - Fixed-width machine integers are Lean Int with explicit two's-complement
    reduction (swrap) or unsigned reduction (uwrap) at width w.
  - C++ doubles are modelled as exact rationals; double arithmetic on the
    values appearing in the claims is exact, so the idealisation is faithful
    there.
  - C++ strings are List Char; a returned const char pointer into the input
    becomes the remaining suffix of the input list.
  - soci_error exceptions become Except with an error-kind inductive whose
    constructors correspond one-to-one to the distinct throw sites.
-/

/-- Two's-complement reduction of an integer to signed width w
(the value a w-bit signed machine integer holds after wraparound). -/
def swrap (w : Nat) (x : Int) : Int := (x + 2 ^ (w - 1)) % 2 ^ w - 2 ^ (w - 1)

/-- Unsigned reduction of an integer to width w (value of a w-bit unsigned
machine integer after wraparound). -/
def uwrap (w : Nat) (x : Int) : Int := x % 2 ^ w

/-- The int value of the C expression (*s - '0') in str2dec. -/
def dval (c : Char) : Int := (c.toNat : Int) - 48

/-- Result of str2dec (firebird/common.h, lines 48-89): the accumulated
value (out), the fractional-digit count (scale) and the rest of the input
from the position at which the function returned; the C caller treats the
result as success exactly when that position holds the terminating NUL,
that is when rest is empty. -/
structure S2D where
  out : Int
  scale : Int
  rest : List Char
deriving DecidableEq

/-- The digit loop of str2dec (firebird/common.h, lines 59-88), parametrised
by the wraparound of the accumulator type (swrap w for a signed IntType,
uwrap w for an unsigned one).  Mirrors the C loop: a second decimal point,
a non-digit, or a wrapped value that moved against the sign direction
returns at the current character; otherwise the digit is committed and
scale is incremented when it came after the decimal point. -/
def str2decGo (wrapF : Int → Int) (sign : Int) :
    List Char → Int → Int → Bool → S2D
  | [], out, scale, _ => ⟨out, scale, []⟩
  | c :: cs, out, scale, period =>
    if c = '.' then
      if period then ⟨out, scale, c :: cs⟩
      else str2decGo wrapF sign cs out scale true
    else if dval c < 0 ∨ 9 < dval c then ⟨out, scale, c :: cs⟩
    else
      let res := wrapF (out * 10 + dval c * sign)
      if sign = 1 then
        if res < out then ⟨out, scale, c :: cs⟩
        else str2decGo wrapF sign cs res (if period then scale + 1 else scale) period
      else
        if res > out then ⟨out, scale, c :: cs⟩
        else str2decGo wrapF sign cs res (if period then scale + 1 else scale) period

/-- str2dec (firebird/common.h, lines 48-89): optional sign, then the digit
loop starting from out = 0, scale = 0, no decimal point seen. -/
def str2decRun (wrapF : Int → Int) : List Char → S2D
  | [] => str2decGo wrapF 1 [] 0 0 false
  | c :: r =>
    if c = '+' then str2decGo wrapF 1 r 0 0 false
    else if c = '-' then str2decGo wrapF (-1) r 0 0 false
    else str2decGo wrapF 1 (c :: r) 0 0 false

/-- str2dec instantiated at a signed w-bit accumulator type. -/
def str2decS (w : Nat) (s : List Char) : S2D := str2decRun (swrap w) s

/-- str2dec instantiated at an unsigned w-bit accumulator type. -/
def str2decU (w : Nat) (s : List Char) : S2D := str2decRun (uwrap w) s

/-- Wire type tag of a slot after masking the null-flag bit
(var->sqltype and ~1); only the tags the numeric conversions dispatch on
are distinguished, every other tag is sqlOther. -/
inductive SQLType
  | sqlShort
  | sqlLong
  | sqlInt64
  | sqlFloat
  | sqlDouble
  | sqlOther
deriving DecidableEq

/-- The test (type == SQL_SHORT || type == SQL_LONG || type == SQL_INT64)
used by cond_to_isc<false>::checkInteger. -/
def isExactIntType : SQLType → Bool
  | .sqlShort => true
  | .sqlLong => true
  | .sqlInt64 => true
  | _ => false

/-- Wire slot descriptor (XSQLVAR).  sqldata is modelled by two overlapping
views of the raw byte buffer: idata is the value read when the bytes are
reinterpreted as the integer of the width selected by sqltype, fdata the
value read when they are reinterpreted as float or double.  Every claim
reads a slot through the view matching its tag. -/
structure XSQLVAR where
  sqlscale : Int
  sqltype : SQLType
  idata : Int := 0
  fdata : ℚ := 0
deriving DecidableEq

/-- Error kinds, one per distinct throw site of the modelled code. -/
inductive SError
  | nonIntegralToIntegral
  | fracToIntegral (scale : Int)
  | incorrectDataType
  | couldNotParseDecimal
  | unsupportedVectorType
deriving DecidableEq

/-- Payload written into a slot by to_isc, tagged with the destination
width the switch selected. -/
inductive WireDatum
  | w16 (v : Int)
  | w32 (v : Int)
  | w64 (v : Int)
  | wF32 (v : ℚ)
  | wF64 (v : ℚ)
deriving DecidableEq

/-- round_for_isc for double (firebird/common.h, lines 98-104):
value < 0 gets 0.5 subtracted, any other value gets 0.5 added. -/
def roundForIscQ (value : ℚ) : ℚ := if value < 0 then value - 1/2 else value + 1/2

/-- static_cast from double to an integer type: truncation toward zero. -/
def truncQ (q : ℚ) : Int := if q < 0 then ⌈q⌉ else ⌊q⌋

/-- to_isc<T1> for an integral T1 (firebird/common.h, lines 125-175),
with T1 taken 64 bit wide (the width parse_decimal instantiates it at).
cond_to_isc<true>::checkInteger is a no-op, round_for_isc the identity;
value*multiplier is 64-bit arithmetic, the division is C++ integer
division (truncation toward zero), and the final store narrows to the
destination width.  The power loops are exact here because every scale the
driver produces keeps the 64-bit powers from overflowing. -/
def to_isc_int (value : Int) (var : XSQLVAR) (x_scale : Int) : Except SError WireDatum :=
  let scale := var.sqlscale + x_scale
  let multiplier : Int := 10 ^ (-scale).toNat
  let divisor : Int := 10 ^ scale.toNat
  match var.sqltype with
  | .sqlShort => .ok (.w16 (swrap 16 (Int.tdiv (swrap 64 (value * multiplier)) divisor)))
  | .sqlLong => .ok (.w32 (swrap 32 (Int.tdiv (swrap 64 (value * multiplier)) divisor)))
  | .sqlInt64 => .ok (.w64 (swrap 64 (Int.tdiv (swrap 64 (value * multiplier)) divisor)))
  | .sqlFloat => .ok (.wF32 (value : ℚ))
  | .sqlDouble => .ok (.wF64 (value : ℚ))
  | .sqlOther => .error .incorrectDataType

/-- to_isc<T1> for T1 = double (firebird/common.h, lines 125-175).
cond_to_isc<false>::checkInteger throws exactly when the effective scale is
nonnegative and the destination tag is an exact integer type; otherwise the
value is scaled, rounded by round_for_isc, divided and truncated into the
destination width.  Doubles are modelled as exact rationals. -/
def to_isc_double (value : ℚ) (var : XSQLVAR) (x_scale : Int) : Except SError WireDatum :=
  let scale := var.sqlscale + x_scale
  if 0 ≤ scale ∧ isExactIntType var.sqltype = true then .error .nonIntegralToIntegral
  else
    let multiplier : Int := 10 ^ (-scale).toNat
    let divisor : Int := 10 ^ scale.toNat
    match var.sqltype with
    | .sqlShort => .ok (.w16 (swrap 16 (truncQ (roundForIscQ (value * multiplier) / divisor))))
    | .sqlLong => .ok (.w32 (swrap 32 (truncQ (roundForIscQ (value * multiplier) / divisor))))
    | .sqlInt64 => .ok (.w64 (swrap 64 (truncQ (roundForIscQ (value * multiplier) / divisor))))
    | .sqlFloat => .ok (.wF32 value)
    | .sqlDouble => .ok (.wF64 value)
    | .sqlOther => .error .incorrectDataType

/-- parse_decimal<IntType, UIntType> (firebird/common.h, lines 177-190) at
width w, up to the final to_isc call: first an unsigned parse attempt whose
accumulator bytes are reinterpreted as the signed type on success, then a
signed attempt, and an error only if both attempts stopped before the end
of the string.  Returns the signed value written into val together with the
scale passed on to to_isc. -/
def parse_decimal (w : Nat) (s : List Char) : Except SError (Int × Int) :=
  let r1 := str2decU w s
  if r1.rest = [] then .ok (swrap w r1.out, r1.scale)
  else
    let r2 := str2decS w s
    if r2.rest = [] then .ok (r2.out, r2.scale)
    else .error .couldNotParseDecimal

/-- from_isc<T1> for an integral T1 (firebird/common.h, lines 229-263):
when the slot scale is negative, cond_from_isc<true>::checkInteger throws
before the data is read; otherwise tens stays 1 and the switch reads the
native width (float sources truncate toward zero on the final cast). -/
def from_isc_int (var : XSQLVAR) : Except SError Int :=
  if var.sqlscale < 0 then .error (.fracToIntegral var.sqlscale)
  else
    match var.sqltype with
    | .sqlShort => .ok var.idata
    | .sqlLong => .ok var.idata
    | .sqlInt64 => .ok var.idata
    | .sqlFloat => .ok (truncQ var.fdata)
    | .sqlDouble => .ok (truncQ var.fdata)
    | .sqlOther => .error .incorrectDataType

/-- from_isc<T1> for T1 = double (firebird/common.h, lines 229-263):
cond_from_isc<false>::checkInteger is a no-op; a negative scale builds
tens = 10^(-scale) and the integer-sourced reads divide by it, the
float-sourced reads return the value unscaled. -/
def from_isc_float (var : XSQLVAR) : Except SError ℚ :=
  let tens : ℚ := if var.sqlscale < 0 then 10 ^ (-var.sqlscale).toNat else 1
  match var.sqltype with
  | .sqlShort => .ok ((var.idata : ℚ) / tens)
  | .sqlLong => .ok ((var.idata : ℚ) / tens)
  | .sqlInt64 => .ok ((var.idata : ℚ) / tens)
  | .sqlFloat => .ok var.fdata
  | .sqlDouble => .ok var.fdata
  | .sqlOther => .error .incorrectDataType

/-- Whether a to_isc outcome is the checkInteger rejection
("Can't convert non-integral value to integral column type"). -/
def isNonIntegralErr : Except SError WireDatum → Bool
  | .error .nonIntegralToIntegral => true
  | _ => false

/-- Whether a from_isc outcome is the checkInteger rejection
("Can't convert value with scale ... to integral type"). -/
def isFracErrQ : Except SError ℚ → Bool
  | .error (.fracToIntegral _) => true
  | _ => false

/-- Decimal digit character for a digit value (digits of the ostream
rendering of an integer). -/
def digitChar : Nat → Char
  | 0 => '0'
  | 1 => '1'
  | 2 => '2'
  | 3 => '3'
  | 4 => '4'
  | 5 => '5'
  | 6 => '6'
  | 7 => '7'
  | 8 => '8'
  | _ => '9'

/-- Fuel-indexed decimal rendering of a natural number,
most significant digit first. -/
def natDigitsF : Nat → Nat → List Char
  | 0, _ => []
  | f + 1, n =>
    if n < 10 then [digitChar n]
    else natDigitsF f (n / 10) ++ [digitChar (n % 10)]

/-- Decimal digit string of a natural number ("0" for 0). -/
def natDigits (n : Nat) : List Char := natDigitsF (n + 1) n

/-- The std::ostream rendering of an integer: optional minus sign followed
by the decimal digits of its absolute value. -/
def intStr (x : Int) : List Char :=
  if x < 0 then '-' :: natDigits x.natAbs else natDigits x.natAbs

/-- The string r of format_decimal after its conditional padding
reassignment (firebird/common.h, lines 199-206): when the digit count of
the rendered integer does not exceed -sqlscale, the sign is re-emitted and
enough zeros are prepended to leave one digit ahead of the point to come;
otherwise the rendered integer is kept as is. -/
def fdR2 (x : Int) (sqlscale : Int) : List Char :=
  let r := intStr x
  let neg : Nat := if x < 0 then 1 else 0
  if (r.length : Int) - neg ≤ -sqlscale then
    (if x < 0 then ['-'] else []) ++
      List.replicate (-sqlscale - ((r.length : Int) - neg) + 1).toNat '0' ++
      r.drop neg
  else r

/-- format_decimal<IntType> (firebird/common.h, lines 192-211) on the
stored integer x and the slot scale: a negative scale left-pads with
zeros when the digit count does not exceed -scale (keeping one digit
ahead of the point, the fdR2 step) and then splits the string -scale
characters from the right around a decimal point; a nonnegative scale
appends that many zero characters. -/
def formatDecimal (x : Int) (sqlscale : Int) : List Char :=
  if sqlscale < 0 then
    (fdR2 x sqlscale).take (((fdR2 x sqlscale).length : Int) + sqlscale).toNat ++
      '.' :: (fdR2 x sqlscale).drop (((fdR2 x sqlscale).length : Int) + sqlscale).toNat
  else
    intStr x ++ List.replicate sqlscale.toNat '0'

/-- Digit value of a character as a natural number. -/
def dvN (c : Char) : Nat := c.toNat - 48

/-- Decimal-accumulator fold over a character list. -/
def dValGo : Nat → List Char → Nat
  | a, [] => a
  | a, c :: cs => dValGo (a * 10 + dvN c) cs

/-- Value of a digit string read in base 10. -/
def digitsVal (l : List Char) : Nat := dValGo 0 l

/-- Split a character list at the first decimal point
(integer part, fractional part). -/
def splitPoint : List Char → List Char × List Char
  | [] => ([], [])
  | c :: cs =>
    if c = '.' then ([], cs)
    else
      let r := splitPoint cs
      (c :: r.1, r.2)

/-- Rational value of an unsigned decimal text:
integer part plus fractional part over ten to the fractional length. -/
def decCore (r : List Char) : ℚ :=
  (digitsVal (splitPoint r).1 : ℚ) + (digitsVal (splitPoint r).2 : ℚ) / 10 ^ (splitPoint r).2.length

/-- Rational value of a decimal text with an optional leading sign.
This is the reference semantics a decimal string denotes. -/
def decValue (s : List Char) : ℚ :=
  match s with
  | [] => 0
  | c :: r =>
    if c = '-' then -(decCore r)
    else if c = '+' then decCore r
    else decCore (c :: r)

/-- The characters of a decimal core with the decimal points removed. -/
def digitsOf : List Char → List Char
  | [] => []
  | c :: cs => if c = '.' then digitsOf cs else c :: digitsOf cs

/-- Number of characters that follow the first decimal point (the scale
str2dec accumulates), with the flag telling whether a point was already
seen. -/
def fracCount : List Char → Bool → Nat
  | [], _ => 0
  | c :: cs, p =>
    if c = '.' then fracCount cs true
    else (if p then 1 else 0) + fracCount cs p

/-- Whether a character is a decimal digit. -/
def isDigitB (c : Char) : Bool := decide (48 ≤ c.toNat) && decide (c.toNat ≤ 57)

/-- Valid decimal core: digits with at most one decimal point in total,
where the flag tells whether a point was already consumed. -/
def validCore : List Char → Bool → Bool
  | [], _ => true
  | c :: cs, p =>
    if c = '.' then !p && validCore cs true
    else isDigitB c && validCore cs p

/-- The text after the optional leading sign, mirroring the sign handling
of str2dec. -/
def coreOf : List Char → List Char
  | [] => []
  | c :: r => if c = '+' then r else if c = '-' then r else c :: r

/-- The sign str2dec chooses for a text. -/
def signOf : List Char → Int
  | [] => 1
  | c :: _ => if c = '+' then 1 else if c = '-' then -1 else 1

/-- Valid decimal text: optional sign, then digits with
at most one decimal point. -/
def validText (s : List Char) : Bool := validCore (coreOf s) false

/-- Magnitude denoted by a decimal text: the value of its digit string
with the point removed. -/
def magnitudeOf (s : List Char) : Nat := digitsVal (digitsOf (coreOf s))

/-- One entry of the buffer pool of the bulk binder: the NULL pointer
pushed for a null-indicated element, or an allocated buffer identified by
its allocation site (the element index) together with its text. -/
inductive PoolEntry
  | nullMarker
  | buffer (id : Nat) (content : List Char)
deriving DecidableEq

/-- Bind-time state of postgresql_vector_use_type_backend: the bound
vector, the begin index, the caller-owned end pointer (none for NULL,
otherwise its value when pre_use runs) and the natural vector length
captured by bind_by_pos_bulk / bind_by_name_bulk into end_var_. -/
structure PGVecState (α : Type) where
  data : List α
  begin_ : Nat
  endPtr : Option Nat
  end_var_ : Nat

/-- Effective upper bound of pre_use (vector-use-type.cpp, lines 59-68):
the end value when the pointer is set and nonzero, else the captured
natural length. -/
def resolvedEnd (endPtr : Option Nat) (endVar : Nat) : Nat :=
  match endPtr with
  | some e => if e ≠ 0 then e else endVar
  | none => endVar

/-- The test (ind != NULL && ind[i] == i_null) of pre_use. -/
def isNullAt (ind : Option (Nat → Bool)) (i : Nat) : Bool :=
  match ind with
  | some f => f i
  | none => false

/-- The element loop of pre_use (vector-use-type.cpp, lines 70-255) over a
list of indices: a null-indicated index pushes the NULL marker, otherwise
the element is rendered into a freshly allocated buffer and pushed; when
the allocation (or the switch over the element type) throws at an index,
the loop aborts there and the entries already pushed remain.  The first
component tells whether the loop aborted by an exception. -/
def preUseGo (isNull : Nat → Bool) (alloc : Nat → Bool) (render : Nat → List Char) :
    List Nat → Bool × List PoolEntry
  | [] => (false, [])
  | i :: is =>
    if isNull i then
      let r := preUseGo isNull alloc render is
      (r.1, .nullMarker :: r.2)
    else if alloc i then
      let r := preUseGo isNull alloc render is
      (r.1, .buffer i (render i) :: r.2)
    else (true, [])

/-- pre_use (vector-use-type.cpp, lines 57-267): resolve the effective
upper bound, run the element loop over [begin_, vend) and append its
entries to the buffer pool.  render is the text conversion of the switch
arm selected by type_, and alloc models whether the allocation at an index
succeeds. -/
def preUse {α : Type} [Inhabited α] (st : PGVecState α) (render : α → List Char)
    (ind : Option (Nat → Bool)) (alloc : Nat → Bool) (pool : List PoolEntry) :
    Bool × List PoolEntry :=
  let vend := resolvedEnd st.endPtr st.end_var_
  let r := preUseGo (isNullAt ind) alloc (fun i => render (st.data.getD i default))
    (List.range' st.begin_ (vend - st.begin_))
  (r.1, pool ++ r.2)

/-- The x_int32 switch arm of pre_use renders the element with
snprintf("%d", v[i]): the decimal text of the value. -/
def renderInt (n : Int) : List Char := intStr n

/-- full_size (vector-use-type.cpp, lines 290-343): the current natural
length of the bound vector, recomputed from the vector itself. -/
def pgFullSize {α : Type} (st : PGVecState α) : Nat := st.data.length

/-- size (vector-use-type.cpp, lines 269-288): recompute the natural
length; when it differs from the captured end_var_ return it, otherwise
return end minus begin when the end pointer is set and nonzero, else
end_var_.  The size_t subtraction is modelled by Nat subtraction, which
agrees with it whenever begin_ does not exceed the end value. -/
def pgSize {α : Type} (st : PGVecState α) : Nat :=
  let actual := pgFullSize st
  if actual ≠ st.end_var_ then actual
  else
    match st.endPtr with
    | some e => if e ≠ 0 then e - st.begin_ else st.end_var_
    | none => st.end_var_

/-- clean_up (vector-use-type.cpp, lines 345-352) as the sequence of
delete calls it performs: one per pool entry, in pool order; deleting the
NULL marker is the no-op delete of a null pointer. -/
def cleanUpDeletes (pool : List PoolEntry) : List (Option Nat) :=
  pool.map fun e =>
    match e with
    | .nullMarker => none
    | .buffer i _ => some i

/-- The allocations clean_up actually releases: the identities of the
non-null buffers it deletes, in order. -/
def cleanUpFreed (pool : List PoolEntry) : List Nat :=
  (cleanUpDeletes pool).filterMap id

/-- The pool entry pre_use produces for one index when no exception is
thrown there: the NULL marker for a null-indicated element, otherwise the
buffer with the rendered text. -/
def poolEntryAt (isNull : Nat → Bool) (render : Nat → List Char) (i : Nat) : PoolEntry :=
  if isNull i then .nullMarker else .buffer i (render i)

/-- A digit character for a value below ten has that digit value. -/
theorem dvN_digitChar {d : Nat} (h : d < 10) : dvN (digitChar d) = d := by
  interval_cases d <;> decide

/-- A digit character for a value below ten is a decimal digit. -/
theorem isDigitB_digitChar {d : Nat} (h : d < 10) : isDigitB (digitChar d) = true := by
  interval_cases d <;> decide

/-- A decimal digit is not the decimal point. -/
theorem ne_point_of_isDigitB {c : Char} (h : isDigitB c = true) : c ≠ '.' := by
  intro hc
  subst hc
  exact absurd h (by decide)

/-- A decimal digit is not the minus sign. -/
theorem ne_minus_of_isDigitB {c : Char} (h : isDigitB c = true) : c ≠ '-' := by
  intro hc
  subst hc
  exact absurd h (by decide)

/-- A decimal digit is not the plus sign. -/
theorem ne_plus_of_isDigitB {c : Char} (h : isDigitB c = true) : c ≠ '+' := by
  intro hc
  subst hc
  exact absurd h (by decide)

/-- The C digit test of str2dec accepts exactly the decimal digits. -/
theorem dval_of_isDigitB {c : Char} (h : isDigitB c = true) : 0 ≤ dval c ∧ dval c ≤ 9 := by
  unfold isDigitB at h
  unfold dval
  simp at h
  omega

/-- Nat and Int digit values agree on decimal digits. -/
theorem dvN_cast_of_isDigitB {c : Char} (h : isDigitB c = true) : (dvN c : Int) = dval c := by
  unfold isDigitB at h
  unfold dvN dval
  simp at h
  omega

/-- The decimal fold over an append runs the two parts in sequence. -/
theorem dValGo_append (a : Nat) (l1 l2 : List Char) :
    dValGo a (l1 ++ l2) = dValGo (dValGo a l1) l2 := by
  induction l1 generalizing a with
  | nil => rfl
  | cons c cs ih => exact ih (a * 10 + dvN c)

/-- The accumulator of the decimal fold scales by ten to the length. -/
theorem dValGo_acc (l : List Char) (a : Nat) :
    dValGo a l = a * 10 ^ l.length + dValGo 0 l := by
  induction l generalizing a with
  | nil => show a = a * 10 ^ 0 + 0; ring
  | cons c cs ih =>
    show dValGo (a * 10 + dvN c) cs = a * 10 ^ (c :: cs).length + dValGo (0 * 10 + dvN c) cs
    rw [ih (a * 10 + dvN c), ih (0 * 10 + dvN c), List.length_cons]
    ring

/-- Value of an appended digit string. -/
theorem digitsVal_append (l1 l2 : List Char) :
    digitsVal (l1 ++ l2) = digitsVal l1 * 10 ^ l2.length + digitsVal l2 := by
  unfold digitsVal
  rw [dValGo_append, dValGo_acc]

/-- Value of a digit string with its head split off. -/
theorem digitsVal_cons (c : Char) (l : List Char) :
    digitsVal (c :: l) = dvN c * 10 ^ l.length + digitsVal l := by
  show dValGo (0 * 10 + dvN c) l = _
  rw [dValGo_acc]
  simp [digitsVal]

/-- Value of a single digit character. -/
theorem digitsVal_singleton (c : Char) : digitsVal [c] = dvN c := by
  show 0 * 10 + dvN c = dvN c
  omega

/-- A run of zero characters has value zero. -/
theorem digitsVal_replicate_zero (k : Nat) : digitsVal (List.replicate k '0') = 0 := by
  induction k with
  | zero => rfl
  | succ n ih =>
    rw [List.replicate_succ]
    show dValGo (0 * 10 + dvN '0') (List.replicate n '0') = 0
    exact ih

/-- The fuel-indexed decimal rendering is correct, nonempty and consists of
digits whenever the fuel exceeds the number. -/
theorem natDigitsF_spec (f : Nat) : ∀ n, n < f →
    digitsVal (natDigitsF f n) = n ∧ natDigitsF f n ≠ [] ∧
      ∀ c ∈ natDigitsF f n, isDigitB c = true := by
  induction f with
  | zero => intro n h; omega
  | succ f ih =>
    intro n h
    rw [natDigitsF]
    by_cases h10 : n < 10
    · rw [if_pos h10]
      refine ⟨?_, by simp, ?_⟩
      · rw [digitsVal_singleton, dvN_digitChar h10]
      · intro c hc
        simp at hc
        subst hc
        exact isDigitB_digitChar h10
    · rw [if_neg h10]
      have hdiv : n / 10 < n := Nat.div_lt_self (by omega) (by omega)
      have hlt : n / 10 < f := by omega
      obtain ⟨ihv, ihne, ihd⟩ := ih (n / 10) hlt
      have hmod : n % 10 < 10 := Nat.mod_lt n (by omega)
      refine ⟨?_, by simp, ?_⟩
      · rw [digitsVal_append, digitsVal_singleton, ihv, dvN_digitChar hmod]
        simp only [List.length_singleton, pow_one]
        omega
      · intro c hc
        rcases List.mem_append.mp hc with h1 | h1
        · exact ihd c h1
        · simp at h1
          subst h1
          exact isDigitB_digitChar hmod

/-- The decimal rendering of a natural number has that value, is nonempty,
and consists of digits. -/
theorem natDigits_spec (n : Nat) :
    digitsVal (natDigits n) = n ∧ natDigits n ≠ [] ∧
      ∀ c ∈ natDigits n, isDigitB c = true :=
  natDigitsF_spec (n + 1) n (Nat.lt_succ_self n)

/-- Two's-complement reduction is the identity on representable values. -/
theorem swrap_eq_self {w : Nat} (hw : 1 ≤ w) {x : Int}
    (h1 : -(2 ^ (w - 1)) ≤ x) (h2 : x < 2 ^ (w - 1)) : swrap w x = x := by
  unfold swrap
  have h2w : (2 : Int) ^ w = 2 ^ (w - 1) * 2 := by
    rw [← pow_succ]
    congr 1
    omega
  rw [Int.emod_eq_of_lt (by omega) (by omega)]
  omega

/-- A list without a decimal point splits into itself and an empty
fractional part. -/
theorem splitPoint_no_point {l : List Char} (h : ∀ c ∈ l, c ≠ '.') :
    splitPoint l = (l, []) := by
  induction l with
  | nil => rfl
  | cons c cs ih =>
    have hc : c ≠ '.' := h c (List.mem_cons_self c cs)
    rw [splitPoint, if_neg hc, ih fun d hd => h d (List.mem_cons_of_mem c hd)]

/-- Splitting at the first point of a point-free prefix followed by a
point. -/
theorem splitPoint_append {a b : List Char} (h : ∀ c ∈ a, c ≠ '.') :
    splitPoint (a ++ '.' :: b) = (a, b) := by
  induction a with
  | nil => simp [splitPoint]
  | cons c cs ih =>
    have hc : c ≠ '.' := h c (List.mem_cons_self c cs)
    rw [List.cons_append, splitPoint, if_neg hc,
      ih fun d hd => h d (List.mem_cons_of_mem c hd)]

/-- Value of a point-free decimal core. -/
theorem decCore_no_point {l : List Char} (h : ∀ c ∈ l, c ≠ '.') :
    decCore l = (digitsVal l : ℚ) := by
  rw [decCore, splitPoint_no_point h]
  show (digitsVal l : ℚ) + (digitsVal ([] : List Char) : ℚ) / 10 ^ ([] : List Char).length = _
  have h0 : digitsVal ([] : List Char) = 0 := rfl
  rw [h0]
  simp

/-- Value of a decimal core split by one point. -/
theorem decCore_append_point {a b : List Char} (h : ∀ c ∈ a, c ≠ '.') :
    decCore (a ++ '.' :: b) = (digitsVal a : ℚ) + (digitsVal b : ℚ) / 10 ^ b.length := by
  rw [decCore, splitPoint_append h]

/-- The reference value of a text led by a minus sign. -/
theorem decValue_minus (r : List Char) : decValue ('-' :: r) = -(decCore r) := by
  rw [decValue, if_pos rfl]

/-- The reference value of a text led by a plus sign. -/
theorem decValue_plus (r : List Char) : decValue ('+' :: r) = decCore r := by
  rw [decValue, if_neg (by decide), if_pos rfl]

/-- The reference value of a text led by a digit is its core value. -/
theorem decValue_cons_digit {c : Char} (r : List Char) (h : isDigitB c = true) :
    decValue (c :: r) = decCore (c :: r) := by
  rw [decValue, if_neg (ne_minus_of_isDigitB h), if_neg (ne_plus_of_isDigitB h)]

/-- After the single permitted point, a valid core is all digits. -/
theorem validCore_true_digits {l : List Char} (h : validCore l true = true) :
    ∀ c ∈ l, isDigitB c = true := by
  induction l with
  | nil => intro c hc; cases hc
  | cons c cs ih =>
    rw [validCore] at h
    by_cases hc : c = '.'
    · rw [if_pos hc] at h
      simp at h
    · rw [if_neg hc] at h
      obtain ⟨h1, h2⟩ := Bool.and_eq_true _ _ ▸ h
      intro d hd
      rcases List.mem_cons.mp hd with h3 | h3
      · exact h3 ▸ h1
      · exact ih h2 d h3

/-- After the single permitted point, a valid core keeps all its
characters as digits. -/
theorem validCore_true_digitsOf {l : List Char} (h : validCore l true = true) :
    digitsOf l = l := by
  induction l with
  | nil => rfl
  | cons c cs ih =>
    rw [validCore] at h
    by_cases hc : c = '.'
    · rw [if_pos hc] at h
      simp at h
    · rw [if_neg hc] at h
      obtain ⟨_, h2⟩ := Bool.and_eq_true _ _ ▸ h
      rw [digitsOf, if_neg hc, ih h2]

/-- After the single permitted point, every remaining character counts
into the scale. -/
theorem validCore_true_fracCount {l : List Char} (h : validCore l true = true) :
    fracCount l true = l.length := by
  induction l with
  | nil => rfl
  | cons c cs ih =>
    rw [validCore] at h
    by_cases hc : c = '.'
    · rw [if_pos hc] at h
      simp at h
    · rw [if_neg hc] at h
      obtain ⟨_, h2⟩ := Bool.and_eq_true _ _ ▸ h
      rw [fracCount, if_neg hc, ih h2, List.length_cons]
      simp
      omega

/-- A valid core splits at its first point into its digit parts: the split
parts are all digits, they concatenate to the digit characters, and the
fractional part has exactly the scale length. -/
theorem validCore_split {l : List Char} (h : validCore l false = true) :
    (∀ c ∈ (splitPoint l).1, isDigitB c = true) ∧
      (∀ c ∈ (splitPoint l).2, isDigitB c = true) ∧
      (splitPoint l).1 ++ (splitPoint l).2 = digitsOf l ∧
      fracCount l false = (splitPoint l).2.length := by
  induction l with
  | nil => exact ⟨fun c hc => absurd hc (List.not_mem_nil c), fun c hc => absurd hc (List.not_mem_nil c), rfl, rfl⟩
  | cons c cs ih =>
    rw [validCore] at h
    by_cases hc : c = '.'
    · rw [if_pos hc] at h
      obtain ⟨_, h2⟩ := Bool.and_eq_true _ _ ▸ h
      subst hc
      rw [splitPoint, if_pos rfl]
      refine ⟨fun d hd => absurd hd (List.not_mem_nil d), validCore_true_digits h2, ?_, ?_⟩
      · rw [digitsOf, if_pos rfl, validCore_true_digitsOf h2]
        rfl
      · rw [fracCount, if_pos rfl, validCore_true_fracCount h2]
    · rw [if_neg hc] at h
      obtain ⟨h1, h2⟩ := Bool.and_eq_true _ _ ▸ h
      obtain ⟨ihA, ihB, ihC, ihD⟩ := ih h2
      rw [splitPoint, if_neg hc]
      refine ⟨?_, ihB, ?_, ?_⟩
      · intro d hd
        rcases List.mem_cons.mp hd with h3 | h3
        · exact h3 ▸ h1
        · exact ihA d h3
      · show c :: (splitPoint cs).1 ++ (splitPoint cs).2 = digitsOf (c :: cs)
        rw [digitsOf, if_neg hc, List.cons_append, ihC]
      · rw [fracCount, if_neg hc, ihD]
        simp

/-- With a positive sign, a valid in-range suffix is consumed exactly by
the str2dec loop: no wraparound fires, the accumulator picks up the digit
value, the scale picks up the fractional count, and the whole suffix is
consumed. -/
theorem str2decGo_pos_exact {w : Nat} (hw : 1 ≤ w) :
    ∀ (cs : List Char) (p : Bool) (out sc : Int),
      validCore cs p = true → 0 ≤ out →
      out * 10 ^ (digitsOf cs).length + (digitsVal (digitsOf cs) : Int) < 2 ^ (w - 1) →
      str2decGo (swrap w) 1 cs out sc p =
        ⟨out * 10 ^ (digitsOf cs).length + (digitsVal (digitsOf cs) : Int),
          sc + (fracCount cs p : Int), []⟩ := by
  intro cs
  induction cs with
  | nil =>
    intro p out sc _ _ _
    have e1 : out * 10 ^ (digitsOf ([] : List Char)).length +
        (digitsVal (digitsOf ([] : List Char)) : Int) = out := by
      show out * 10 ^ 0 + ((0 : Nat) : Int) = out
      simp
    have e2 : sc + (fracCount ([] : List Char) p : Int) = sc := by
      show sc + ((0 : Nat) : Int) = sc
      simp
    rw [e1, e2]
    rfl
  | cons c cs ih =>
    intro p out sc hv hout hbound
    by_cases hc : c = '.'
    · subst hc
      rw [validCore, if_pos rfl] at hv
      obtain ⟨hp, hv2⟩ := Bool.and_eq_true _ _ ▸ hv
      have hpf : p = false := by
        cases p
        · rfl
        · exact absurd hp (by decide)
      subst hpf
      have hdg : digitsOf ('.' :: cs) = digitsOf cs := by rw [digitsOf, if_pos rfl]
      have hfc : fracCount ('.' :: cs) false = fracCount cs true := by
        rw [fracCount, if_pos rfl]
      rw [hdg] at hbound
      rw [hdg, hfc]
      simp only [str2decGo, if_pos rfl]
      rw [if_neg (by decide : ¬(false = true))]
      exact ih true out sc hv2 hout hbound
    · rw [validCore, if_neg hc] at hv
      obtain ⟨hdig, hv2⟩ := Bool.and_eq_true _ _ ▸ hv
      obtain ⟨hd0, hd9⟩ := dval_of_isDigitB hdig
      have hdg : digitsOf (c :: cs) = c :: digitsOf cs := by rw [digitsOf, if_neg hc]
      have hfc : fracCount (c :: cs) p = (if p then 1 else 0) + fracCount cs p := by
        rw [fracCount, if_neg hc]
      have hone : (1 : Int) ≤ 10 ^ (digitsOf cs).length := by
        have := pow_pos (show (0 : Int) < 10 by norm_num) (digitsOf cs).length
        omega
      have hVpos : (0 : Int) ≤ (digitsVal (digitsOf cs) : Int) := Int.natCast_nonneg _
      have hbound2 : (out * 10 + dval c) * 10 ^ (digitsOf cs).length +
          (digitsVal (digitsOf cs) : Int) < 2 ^ (w - 1) := by
        rw [hdg, List.length_cons, digitsVal_cons] at hbound
        push_cast at hbound
        rw [dvN_cast_of_isDigitB hdig] at hbound
        have e : (out * 10 + dval c) * 10 ^ (digitsOf cs).length =
            out * 10 ^ ((digitsOf cs).length + 1) + dval c * 10 ^ (digitsOf cs).length := by
          ring
        rw [e]
        linarith
      have ha : (0 : Int) ≤ out * 10 + dval c := by
        have := mul_nonneg hout (show (0 : Int) ≤ 10 by norm_num)
        linarith
      have hlt : out * 10 + dval c < 2 ^ (w - 1) := by
        have h1 : out * 10 + dval c ≤ (out * 10 + dval c) * 10 ^ (digitsOf cs).length :=
          le_mul_of_one_le_right ha hone
        linarith
      have hwrap : swrap w (out * 10 + dval c) = out * 10 + dval c := by
        refine swrap_eq_self hw ?_ hlt
        have := pow_pos (show (0 : Int) < 2 by norm_num) (w - 1)
        omega
      have hnotlt : ¬ swrap w (out * 10 + dval c * 1) < out := by
        rw [mul_one, hwrap]
        linarith
      simp only [str2decGo, if_neg hc,
        if_neg (show ¬(dval c < 0 ∨ 9 < dval c) by push_neg; exact ⟨hd0, by omega⟩),
        if_pos (rfl : (1 : Int) = 1), if_neg hnotlt]
      rw [mul_one, hwrap]
      rw [ih p (out * 10 + dval c) (if p = true then sc + 1 else sc) hv2 ha hbound2]
      have eo : (out * 10 + dval c) * 10 ^ (digitsOf cs).length +
          (digitsVal (digitsOf cs) : Int) =
          out * 10 ^ (digitsOf (c :: cs)).length + (digitsVal (digitsOf (c :: cs)) : Int) := by
        rw [hdg, List.length_cons, digitsVal_cons]
        push_cast
        rw [dvN_cast_of_isDigitB hdig]
        ring
      have es : (if p = true then sc + 1 else sc) + (fracCount cs p : Int) =
          sc + (fracCount (c :: cs) p : Int) := by
        rw [hfc]
        cases p
        · simp
        · simp
          ring
      rw [eo, es]
      simp

/-- With a negative sign, a valid in-range suffix is consumed exactly by
the str2dec loop, the accumulator descending to the negated digit value. -/
theorem str2decGo_neg_exact {w : Nat} (hw : 1 ≤ w) :
    ∀ (cs : List Char) (p : Bool) (out sc : Int),
      validCore cs p = true → out ≤ 0 →
      -(2 ^ (w - 1)) ≤ out * 10 ^ (digitsOf cs).length - (digitsVal (digitsOf cs) : Int) →
      str2decGo (swrap w) (-1) cs out sc p =
        ⟨out * 10 ^ (digitsOf cs).length - (digitsVal (digitsOf cs) : Int),
          sc + (fracCount cs p : Int), []⟩ := by
  intro cs
  induction cs with
  | nil =>
    intro p out sc _ _ _
    have e1 : out * 10 ^ (digitsOf ([] : List Char)).length -
        (digitsVal (digitsOf ([] : List Char)) : Int) = out := by
      show out * 10 ^ 0 - ((0 : Nat) : Int) = out
      simp
    have e2 : sc + (fracCount ([] : List Char) p : Int) = sc := by
      show sc + ((0 : Nat) : Int) = sc
      simp
    rw [e1, e2]
    rfl
  | cons c cs ih =>
    intro p out sc hv hout hbound
    by_cases hc : c = '.'
    · subst hc
      rw [validCore, if_pos rfl] at hv
      obtain ⟨hp, hv2⟩ := Bool.and_eq_true _ _ ▸ hv
      have hpf : p = false := by
        cases p
        · rfl
        · exact absurd hp (by decide)
      subst hpf
      have hdg : digitsOf ('.' :: cs) = digitsOf cs := by rw [digitsOf, if_pos rfl]
      have hfc : fracCount ('.' :: cs) false = fracCount cs true := by
        rw [fracCount, if_pos rfl]
      rw [hdg] at hbound
      rw [hdg, hfc]
      simp only [str2decGo, if_pos rfl]
      rw [if_neg (by decide : ¬(false = true))]
      exact ih true out sc hv2 hout hbound
    · rw [validCore, if_neg hc] at hv
      obtain ⟨hdig, hv2⟩ := Bool.and_eq_true _ _ ▸ hv
      obtain ⟨hd0, hd9⟩ := dval_of_isDigitB hdig
      have hdg : digitsOf (c :: cs) = c :: digitsOf cs := by rw [digitsOf, if_neg hc]
      have hfc : fracCount (c :: cs) p = (if p then 1 else 0) + fracCount cs p := by
        rw [fracCount, if_neg hc]
      have hone : (1 : Int) ≤ 10 ^ (digitsOf cs).length := by
        have := pow_pos (show (0 : Int) < 10 by norm_num) (digitsOf cs).length
        omega
      have hVpos : (0 : Int) ≤ (digitsVal (digitsOf cs) : Int) := Int.natCast_nonneg _
      have hbound2 : -(2 ^ (w - 1)) ≤ (out * 10 - dval c) * 10 ^ (digitsOf cs).length -
          (digitsVal (digitsOf cs) : Int) := by
        rw [hdg, List.length_cons, digitsVal_cons] at hbound
        push_cast at hbound
        rw [dvN_cast_of_isDigitB hdig] at hbound
        have e : (out * 10 - dval c) * 10 ^ (digitsOf cs).length =
            out * 10 ^ ((digitsOf cs).length + 1) - dval c * 10 ^ (digitsOf cs).length := by
          ring
        rw [e]
        linarith
      have ha : out * 10 - dval c ≤ 0 := by
        have := mul_nonpos_of_nonpos_of_nonneg hout (show (0 : Int) ≤ 10 by norm_num)
        linarith
      have hge : -(2 ^ (w - 1)) ≤ out * 10 - dval c := by
        have h1 : (out * 10 - dval c) * 10 ^ (digitsOf cs).length ≤ (out * 10 - dval c) * 1 :=
          mul_le_mul_of_nonpos_left hone ha
        rw [mul_one] at h1
        linarith
      have hwrap : swrap w (out * 10 - dval c) = out * 10 - dval c := by
        refine swrap_eq_self hw hge ?_
        have := pow_pos (show (0 : Int) < 2 by norm_num) (w - 1)
        omega
      have hm1 : out * 10 + dval c * (-1) = out * 10 - dval c := by ring
      have hnotgt : ¬ swrap w (out * 10 + dval c * (-1)) > out := by
        rw [hm1, hwrap]
        linarith
      simp only [str2decGo, if_neg hc,
        if_neg (show ¬(dval c < 0 ∨ 9 < dval c) by push_neg; exact ⟨hd0, by omega⟩),
        if_neg (show ¬((-1 : Int) = 1) by decide), if_neg hnotgt]
      rw [hm1, hwrap]
      rw [ih p (out * 10 - dval c) (if p = true then sc + 1 else sc) hv2 ha hbound2]
      have eo : (out * 10 - dval c) * 10 ^ (digitsOf cs).length -
          (digitsVal (digitsOf cs) : Int) =
          out * 10 ^ (digitsOf (c :: cs)).length - (digitsVal (digitsOf (c :: cs)) : Int) := by
        rw [hdg, List.length_cons, digitsVal_cons]
        push_cast
        rw [dvN_cast_of_isDigitB hdig]
        ring
      have es : (if p = true then sc + 1 else sc) + (fracCount cs p : Int) =
          sc + (fracCount (c :: cs) p : Int) := by
        rw [hfc]
        cases p
        · simp
        · simp
          ring
      rw [eo, es]

/-- Characterisation of the padded string of format_decimal at a negative
scale: an optional minus sign followed by a digit string carrying the
absolute value of the stored integer, with strictly more digits than the
number of fractional places. -/
theorem fdR2_spec (x s : Int) (hs : s < 0) :
    ∃ R : List Char,
      fdR2 x s = (if x < 0 then '-' :: R else R) ∧
      (∀ c ∈ R, isDigitB c = true) ∧
      digitsVal R = x.natAbs ∧
      (-s).toNat < R.length := by
  obtain ⟨hval, hne, hdig⟩ := natDigits_spec x.natAbs
  by_cases hx : x < 0
  · have hIS : intStr x = '-' :: natDigits x.natAbs := by rw [intStr, if_pos hx]
    simp only [fdR2]
    rw [hIS]
    simp only [if_pos hx]
    split_ifs with hpad
    · simp only [List.drop_succ_cons, List.drop_zero, List.singleton_append]
      refine ⟨_, rfl, ?_, ?_, ?_⟩
      · intro c hc
        rcases List.mem_append.mp hc with h1 | h1
        · rw [List.eq_of_mem_replicate h1]
          decide
        · exact hdig c h1
      · simp only [List.append_eq]
        rw [digitsVal_append, digitsVal_replicate_zero, hval]
        simp
      · simp only [List.append_eq]
        simp only [List.length_cons] at hpad ⊢
        rw [List.length_append, List.length_replicate]
        push_cast at hpad ⊢
        omega
    · refine ⟨natDigits x.natAbs, rfl, hdig, hval, ?_⟩
      simp only [List.length_cons] at hpad
      push_cast at hpad
      omega
  · have hIS : intStr x = natDigits x.natAbs := by rw [intStr, if_neg hx]
    simp only [fdR2]
    rw [hIS]
    simp only [if_neg hx]
    split_ifs with hpad
    · simp only [List.drop_zero, List.nil_append]
      refine ⟨_, rfl, ?_, ?_, ?_⟩
      · intro c hc
        rcases List.mem_append.mp hc with h1 | h1
        · rw [List.eq_of_mem_replicate h1]
          decide
        · exact hdig c h1
      · rw [digitsVal_append, digitsVal_replicate_zero, hval]
        simp
      · rw [List.length_append, List.length_replicate]
        push_cast at hpad ⊢
        omega
    · refine ⟨natDigits x.natAbs, rfl, hdig, hval, ?_⟩
      push_cast at hpad
      omega

/-- Shape of format_decimal at a negative scale: an optional minus sign,
a nonempty digit string, the decimal point, and exactly -scale fractional
digits, the digit parts together carrying the absolute stored value. -/
theorem formatDecimal_neg_shape (x s : Int) (hs : s < 0) :
    ∃ A B : List Char,
      formatDecimal x s = (if x < 0 then '-' :: (A ++ '.' :: B) else A ++ '.' :: B) ∧
      A ≠ [] ∧ (∀ c ∈ A, isDigitB c = true) ∧ (∀ c ∈ B, isDigitB c = true) ∧
      B.length = (-s).toNat ∧
      digitsVal A * 10 ^ (-s).toNat + digitsVal B = x.natAbs := by
  obtain ⟨R, hR, hRdig, hRval, hRlen⟩ := fdR2_spec x s hs
  refine ⟨R.take (R.length - (-s).toNat), R.drop (R.length - (-s).toNat), ?_, ?_, ?_, ?_, ?_, ?_⟩
  · rw [formatDecimal, if_pos hs, hR]
    by_cases hx : x < 0
    · simp only [if_pos hx]
      have hLen : ((('-' :: R).length : Int) + s).toNat = (R.length - (-s).toNat) + 1 := by
        simp only [List.length_cons]
        push_cast
        omega
      rw [hLen, List.take_succ_cons, List.drop_succ_cons]
      rfl
    · simp only [if_neg hx]
      have hLen : ((R.length : Int) + s).toNat = R.length - (-s).toNat := by
        omega
      rw [hLen]
  · have hlen : (R.take (R.length - (-s).toNat)).length = R.length - (-s).toNat := by
      rw [List.length_take]
      omega
    intro hnil
    rw [hnil] at hlen
    simp at hlen
    omega
  · exact fun c hc => hRdig c (List.take_subset _ _ hc)
  · exact fun c hc => hRdig c (List.drop_subset _ _ hc)
  · rw [List.length_drop]
    omega
  · have hB : (R.drop (R.length - (-s).toNat)).length = (-s).toNat := by
      rw [List.length_drop]
      omega
    nth_rewrite 2 [← hB]
    rw [← digitsVal_append, List.take_append_drop, hRval]

/-- The reference value of the format_decimal rendering is the stored
integer times ten to the slot scale. -/
theorem decValue_formatDecimal (x s : Int) :
    decValue (formatDecimal x s) = (x : ℚ) * 10 ^ s := by
  by_cases hs : s < 0
  · obtain ⟨A, B, hEq, hAne, hAdig, hBdig, hBlen, hval⟩ := formatDecimal_neg_shape x s hs
    have hzpow : (10 : ℚ) ^ s = ((10 : ℚ) ^ (-s).toNat)⁻¹ := by
      rw [← zpow_natCast (10 : ℚ) (-s).toNat, ← zpow_neg]
      congr 1
      omega
    have hp : ((10 : ℚ) ^ (-s).toNat) ≠ 0 := by positivity
    have hvalQ : (digitsVal A : ℚ) * 10 ^ (-s).toNat + (digitsVal B : ℚ) = (x.natAbs : ℚ) := by
      exact_mod_cast hval
    have hAp : ∀ c ∈ A, c ≠ '.' := fun c hc => ne_point_of_isDigitB (hAdig c hc)
    have hcore : decCore (A ++ '.' :: B) = (x.natAbs : ℚ) * ((10 : ℚ) ^ (-s).toNat)⁻¹ := by
      rw [decCore_append_point hAp, hBlen]
      rw [div_eq_mul_inv, eq_comm, ← hvalQ]
      field_simp
    by_cases hx : x < 0
    · rw [hEq, if_pos hx, decValue_minus, hcore, hzpow]
      have hxa : (x.natAbs : ℚ) = -(x : ℚ) := by
        have h1 : (x.natAbs : Int) = -x := by omega
        have h2 : (((x.natAbs : Int)) : ℚ) = (((-x : Int)) : ℚ) := by rw [h1]
        rw [Int.cast_natCast] at h2
        rw [h2]
        push_cast
        ring
      rw [hxa]
      ring
    · obtain ⟨a, A', hA⟩ : ∃ a A', A = a :: A' := by
        cases A with
        | nil => exact absurd rfl hAne
        | cons a A' => exact ⟨a, A', rfl⟩
      have hda : isDigitB a = true := hAdig a (hA ▸ List.mem_cons_self a A')
      rw [hEq, if_neg hx, hA, List.cons_append, decValue_cons_digit _ hda,
        ← List.cons_append, ← hA, hcore, hzpow]
      have hxa : (x.natAbs : ℚ) = (x : ℚ) := by
        have h1 : (x.natAbs : Int) = x := by omega
        have h2 : (((x.natAbs : Int)) : ℚ) = (x : ℚ) := by rw [h1]
        rw [Int.cast_natCast] at h2
        exact h2
      rw [hxa]
  · obtain ⟨hval, hne, hdig⟩ := natDigits_spec x.natAbs
    rw [formatDecimal, if_neg hs]
    have hzpow : (10 : ℚ) ^ s = (10 : ℚ) ^ s.toNat := by
      rw [← zpow_natCast (10 : ℚ) s.toNat]
      congr 1
      omega
    have hnp : ∀ c ∈ natDigits x.natAbs ++ List.replicate s.toNat '0', c ≠ '.' := by
      intro c hc
      rcases List.mem_append.mp hc with h1 | h1
      · exact ne_point_of_isDigitB (hdig c h1)
      · rw [List.eq_of_mem_replicate h1]
        decide
    have hcore : decCore (natDigits x.natAbs ++ List.replicate s.toNat '0') =
        (x.natAbs : ℚ) * (10 : ℚ) ^ s.toNat := by
      rw [decCore_no_point hnp, digitsVal_append, digitsVal_replicate_zero,
        List.length_replicate, hval]
      push_cast
      ring
    by_cases hx : x < 0
    · rw [intStr, if_pos hx, List.cons_append, decValue_minus, hcore, hzpow]
      have hxa : (x.natAbs : ℚ) = -(x : ℚ) := by
        have h1 : (x.natAbs : Int) = -x := by omega
        have h2 : (((x.natAbs : Int)) : ℚ) = (((-x : Int)) : ℚ) := by rw [h1]
        rw [Int.cast_natCast] at h2
        rw [h2]
        push_cast
        ring
      rw [hxa]
      ring
    · obtain ⟨a, dl', hA⟩ : ∃ a dl', natDigits x.natAbs = a :: dl' := by
        cases hdl : natDigits x.natAbs with
        | nil => exact absurd hdl hne
        | cons a dl' => exact ⟨a, dl', rfl⟩
      have hda : isDigitB a = true := hdig a (hA ▸ List.mem_cons_self a dl')
      rw [intStr, if_neg hx, hA, List.cons_append, decValue_cons_digit _ hda,
        ← List.cons_append, ← hA, hcore, hzpow]
      have hxa : (x.natAbs : ℚ) = (x : ℚ) := by
        have h1 : (x.natAbs : Int) = x := by omega
        have h2 : (((x.natAbs : Int)) : ℚ) = (x : ℚ) := by rw [h1]
        rw [Int.cast_natCast] at h2
        exact h2
      rw [hxa]

/-- Value of a valid decimal core: its digit string over ten to the
fractional count. -/
theorem decCore_valid {l : List Char} (h : validCore l false = true) :
    decCore l = (digitsVal (digitsOf l) : ℚ) / 10 ^ fracCount l false := by
  obtain ⟨hA, hB, hAB, hFC⟩ := validCore_split h
  rw [decCore, hFC, ← hAB, digitsVal_append]
  have hp : ((10 : ℚ) ^ (splitPoint l).2.length) ≠ 0 := by positivity
  push_cast
  field_simp

/-- Auxiliary record of what the sign-stripped digit loop of str2dec
computes on a valid in-range core (positive sign). -/
theorem str2dec_core_pos {w : Nat} (hw : 1 ≤ w) (r : List Char)
    (hv : validCore r false = true)
    (hm : (digitsVal (digitsOf r) : Int) < 2 ^ (w - 1)) :
    str2decGo (swrap w) 1 r 0 0 false =
      ⟨(digitsVal (digitsOf r) : Int), (fracCount r false : Int), []⟩ := by
  have hb : (0 : Int) * 10 ^ (digitsOf r).length + (digitsVal (digitsOf r) : Int) <
      2 ^ (w - 1) := by
    have e : (0 : Int) * 10 ^ (digitsOf r).length + (digitsVal (digitsOf r) : Int) =
        (digitsVal (digitsOf r) : Int) := by ring
    rw [e]
    exact hm
  rw [str2decGo_pos_exact hw r false 0 0 hv (le_refl 0) hb]
  have e1 : (0 : Int) * 10 ^ (digitsOf r).length + (digitsVal (digitsOf r) : Int) =
      (digitsVal (digitsOf r) : Int) := by ring
  have e2 : (0 : Int) + (fracCount r false : Int) = (fracCount r false : Int) := by ring
  rw [e1, e2]

/-- Auxiliary record of what the sign-stripped digit loop of str2dec
computes on a valid in-range core (negative sign). -/
theorem str2dec_core_neg {w : Nat} (hw : 1 ≤ w) (r : List Char)
    (hv : validCore r false = true)
    (hm : (digitsVal (digitsOf r) : Int) < 2 ^ (w - 1)) :
    str2decGo (swrap w) (-1) r 0 0 false =
      ⟨-(digitsVal (digitsOf r) : Int), (fracCount r false : Int), []⟩ := by
  have hb : -(2 ^ (w - 1)) ≤
      (0 : Int) * 10 ^ (digitsOf r).length - (digitsVal (digitsOf r) : Int) := by
    have e : (0 : Int) * 10 ^ (digitsOf r).length - (digitsVal (digitsOf r) : Int) =
        -(digitsVal (digitsOf r) : Int) := by ring
    rw [e]
    omega
  rw [str2decGo_neg_exact hw r false 0 0 hv (le_refl 0) hb]
  have e1 : (0 : Int) * 10 ^ (digitsOf r).length - (digitsVal (digitsOf r) : Int) =
      -(digitsVal (digitsOf r) : Int) := by ring
  have e2 : (0 : Int) + (fracCount r false : Int) = (fracCount r false : Int) := by ring
  rw [e1, e2]

/-- Formatting a nonnegative magnitude at the negated fractional count
divides it by ten to that count. -/
theorem decValue_formatDecimal_mag (V fc : Nat) :
    decValue (formatDecimal (V : Int) (-(fc : Int))) = (V : ℚ) / 10 ^ fc := by
  rw [decValue_formatDecimal, zpow_neg, zpow_natCast, div_eq_mul_inv]
  push_cast
  ring

/-- Formatting a negated magnitude at the negated fractional count
divides it by ten to that count and keeps the sign. -/
theorem decValue_formatDecimal_neg_mag (V fc : Nat) :
    decValue (formatDecimal (-(V : Int)) (-(fc : Int))) = -((V : ℚ) / 10 ^ fc) := by
  rw [decValue_formatDecimal, zpow_neg, zpow_natCast, div_eq_mul_inv]
  push_cast
  ring

/-- C2: for every valid decimal text (optional sign, digits, at most one
decimal point) whose magnitude fits the signed accumulator width, str2dec
consumes the whole text successfully, and format_decimal applied to the
produced magnitude at the slot scale that corresponds to the produced
fractional count (its negation, by the section-3 scale convention)
renders a text with the same numeric value as the input — value
equivalence, not textual identity. -/
theorem c2_str2dec_format_roundtrip (w : Nat) (hw : 1 ≤ w) (s : List Char)
    (hv : validText s = true) (hm : (magnitudeOf s : Int) < 2 ^ (w - 1)) :
    (str2decS w s).rest = [] ∧
      decValue (formatDecimal (str2decS w s).out (-(str2decS w s).scale)) = decValue s := by
  cases s with
  | nil =>
    have h0 : str2decS w [] = ⟨0, 0, []⟩ := rfl
    rw [h0]
    refine ⟨rfl, ?_⟩
    show decValue (formatDecimal 0 (-(0 : Int))) = decValue []
    rw [decValue_formatDecimal]
    show ((0 : Int) : ℚ) * 10 ^ (-(0 : Int)) = (0 : ℚ)
    simp
  | cons c r =>
    by_cases hminus : c = '-'
    · subst hminus
      have hv' : validCore r false = true := by
        rw [validText] at hv
        simpa only [coreOf, if_neg (by decide : ¬('-' = '+')), if_pos rfl] using hv
      have hm' : (digitsVal (digitsOf r) : Int) < 2 ^ (w - 1) := by
        rw [magnitudeOf] at hm
        simpa only [coreOf, if_neg (by decide : ¬('-' = '+')), if_pos rfl] using hm
      have hrun : str2decS w ('-' :: r) = str2decGo (swrap w) (-1) r 0 0 false := by
        rw [str2decS]
        simp [str2decRun]
      rw [hrun, str2dec_core_neg hw r hv' hm']
      refine ⟨rfl, ?_⟩
      show decValue (formatDecimal (-(digitsVal (digitsOf r) : Int))
        (-(fracCount r false : Int))) = decValue ('-' :: r)
      rw [decValue_formatDecimal_neg_mag, decValue_minus, decCore_valid hv']
    · by_cases hplus : c = '+'
      · subst hplus
        have hv' : validCore r false = true := by
          rw [validText] at hv
          simpa only [coreOf, if_pos rfl] using hv
        have hm' : (digitsVal (digitsOf r) : Int) < 2 ^ (w - 1) := by
          rw [magnitudeOf] at hm
          simpa only [coreOf, if_pos rfl] using hm
        have hrun : str2decS w ('+' :: r) = str2decGo (swrap w) 1 r 0 0 false := by
          rw [str2decS]
          simp [str2decRun]
        rw [hrun, str2dec_core_pos hw r hv' hm']
        refine ⟨rfl, ?_⟩
        show decValue (formatDecimal ((digitsVal (digitsOf r) : Int))
          (-(fracCount r false : Int))) = decValue ('+' :: r)
        rw [decValue_formatDecimal_mag, decValue_plus, decCore_valid hv']
      · have hcore : coreOf (c :: r) = c :: r := by
          simp only [coreOf]
          rw [if_neg hplus, if_neg hminus]
        have hv' : validCore (c :: r) false = true := by
          rw [validText, hcore] at hv
          exact hv
        have hm' : (digitsVal (digitsOf (c :: r)) : Int) < 2 ^ (w - 1) := by
          rw [magnitudeOf, hcore] at hm
          exact hm
        have hrun : str2decS w (c :: r) = str2decGo (swrap w) 1 (c :: r) 0 0 false := by
          rw [str2decS]
          simp only [str2decRun]
          rw [if_neg hplus, if_neg hminus]
        rw [hrun, str2dec_core_pos hw (c :: r) hv' hm']
        refine ⟨rfl, ?_⟩
        show decValue (formatDecimal ((digitsVal (digitsOf (c :: r)) : Int))
          (-(fracCount (c :: r) false : Int))) = decValue (c :: r)
        have hdv : decValue (c :: r) = decCore (c :: r) := by
          simp only [decValue]
          rw [if_neg hminus, if_neg hplus]
        rw [decValue_formatDecimal_mag, hdv, decCore_valid hv']

/-- Reduction of to_isc for a double source into an SQL_INT64 slot when the
checkInteger rejection does not fire. -/
theorem to_isc_double_int64 (value : ℚ) (sc d : Int) (f : ℚ) (xs : Int)
    (h : ¬(0 ≤ sc + xs)) :
    to_isc_double value ⟨sc, .sqlInt64, d, f⟩ xs =
      .ok (.w64 (swrap 64 (truncQ (roundForIscQ (value * ((10 : Int) ^ (-(sc + xs)).toNat : Int)) /
        ((10 : Int) ^ (sc + xs).toNat : Int))))) := by
  simp only [to_isc_double]
  rw [if_neg (by rintro ⟨h1, -⟩; exact h h1)]

/-- Reduction of to_isc for a double source into an SQL_LONG slot when the
checkInteger rejection does not fire. -/
theorem to_isc_double_long (value : ℚ) (sc d : Int) (f : ℚ) (xs : Int)
    (h : ¬(0 ≤ sc + xs)) :
    to_isc_double value ⟨sc, .sqlLong, d, f⟩ xs =
      .ok (.w32 (swrap 32 (truncQ (roundForIscQ (value * ((10 : Int) ^ (-(sc + xs)).toNat : Int)) /
        ((10 : Int) ^ (sc + xs).toNat : Int))))) := by
  simp only [to_isc_double]
  rw [if_neg (by rintro ⟨h1, -⟩; exact h h1)]

/-- Reduction of to_isc for an integral source into an SQL_INT64 slot. -/
theorem to_isc_int_int64 (value : Int) (sc d : Int) (f : ℚ) (xs : Int) :
    to_isc_int value ⟨sc, .sqlInt64, d, f⟩ xs =
      .ok (.w64 (swrap 64 (Int.tdiv (swrap 64 (value * 10 ^ (-(sc + xs)).toNat))
        (10 ^ (sc + xs).toNat)))) := rfl

/-- The double round_for_isc followed by truncation is the identity on
integer values. -/
theorem truncQ_roundForIscQ_int (m : Int) : truncQ (roundForIscQ (m : ℚ)) = m := by
  by_cases hm : (m : ℚ) < 0
  · have hm' : m < 0 := by exact_mod_cast hm
    rw [roundForIscQ, if_pos hm, truncQ, if_pos (by
      have h1 : m ≤ -1 := by omega
      have h2 : (m : ℚ) ≤ ((-1 : Int) : ℚ) := by exact_mod_cast h1
      have h3 : ((-1 : Int) : ℚ) = -1 := by norm_num
      rw [h3] at h2
      linarith)]
    rw [sub_eq_add_neg, add_comm, Int.ceil_add_int]
    norm_num
  · rw [roundForIscQ, if_neg hm, truncQ, if_neg (by push_neg at hm ⊢; linarith)]
    rw [add_comm, Int.floor_add_int]
    norm_num

/-- Reduction of from_isc for a double target on an integer slot at a
negative scale: the stored integer is divided by ten to the magnitude of
the scale. -/
theorem from_isc_float_int_neg (sc : Int) (ty : SQLType) (d : Int) (f : ℚ)
    (hsc : sc < 0) (hty : isExactIntType ty = true) :
    from_isc_float ⟨sc, ty, d, f⟩ = .ok ((d : ℚ) / 10 ^ (-sc).toNat) := by
  cases ty with
  | sqlShort =>
    simp only [from_isc_float]
    rw [if_pos hsc]
  | sqlLong =>
    simp only [from_isc_float]
    rw [if_pos hsc]
  | sqlInt64 =>
    simp only [from_isc_float]
    rw [if_pos hsc]
  | sqlFloat => exact absurd hty (by decide)
  | sqlDouble => exact absurd hty (by decide)
  | sqlOther => exact absurd hty (by decide)

/-- Reduction of from_isc for a double target on an integer slot at a
nonnegative scale: the stored integer is returned unscaled. -/
theorem from_isc_float_int_nonneg (sc : Int) (ty : SQLType) (d : Int) (f : ℚ)
    (hsc : 0 ≤ sc) (hty : isExactIntType ty = true) :
    from_isc_float ⟨sc, ty, d, f⟩ = .ok ((d : ℚ)) := by
  have hns : ¬(sc < 0) := not_lt.mpr hsc
  cases ty with
  | sqlShort =>
    simp only [from_isc_float]
    rw [if_neg hns]
    norm_num
  | sqlLong =>
    simp only [from_isc_float]
    rw [if_neg hns]
    norm_num
  | sqlInt64 =>
    simp only [from_isc_float]
    rw [if_neg hns]
    norm_num
  | sqlFloat => exact absurd hty (by decide)
  | sqlDouble => exact absurd hty (by decide)
  | sqlOther => exact absurd hty (by decide)

/-- C1 counterexample: the claim reads a positive scale as a division of
the stored integer; at stored integer 5 and scale 1 format_decimal
renders the text 50, whose value is fifty, not the divided value one
half. -/
theorem c1_scale_convention_cex :
    formatDecimal 5 1 = ['5', '0'] ∧ decValue (formatDecimal 5 1) = (50 : ℚ) ∧
      (50 : ℚ) ≠ (5 : ℚ) / 10 ^ (1 : Nat) := by
  refine ⟨by decide, ?_, by norm_num⟩
  rw [decValue_formatDecimal]
  norm_num

/-- C1 (amended): the scale convention the code realises is logical value
equals stored integer times ten to the scale: a positive scale multiplies
(format_decimal appends that many zeros), a negative scale divides by ten
to its magnitude (the rendered value has exactly -scale fractional
digits); from_isc realises the convention for negative scales and applies
no scaling for nonnegative ones, and to_isc realises it whenever the
logical value is exactly representable at the slot scale. -/
theorem c1_scale_convention :
    (∀ (x sc : Int), decValue (formatDecimal x sc) = (x : ℚ) * 10 ^ sc) ∧
    (∀ (x sc : Int), sc < 0 → ∃ A B : List Char,
        formatDecimal x sc = (if x < 0 then '-' :: (A ++ '.' :: B) else A ++ '.' :: B) ∧
        B.length = (-sc).toNat) ∧
    (∀ (sc : Int) (ty : SQLType) (d : Int) (f : ℚ), sc < 0 → isExactIntType ty = true →
        from_isc_float ⟨sc, ty, d, f⟩ = .ok ((d : ℚ) / 10 ^ (-sc).toNat)) ∧
    (∀ (sc : Int) (ty : SQLType) (d : Int) (f : ℚ), 0 ≤ sc → isExactIntType ty = true →
        from_isc_float ⟨sc, ty, d, f⟩ = .ok ((d : ℚ))) ∧
    (∀ (m : Int) (n : Nat), 0 < n →
        to_isc_double ((m : ℚ) / 10 ^ n) ⟨-(n : Int), .sqlInt64, 0, 0⟩ 0 =
          .ok (.w64 (swrap 64 m))) ∧
    (∀ (m : Int) (n : Nat), -(2 ^ 63) ≤ m * 10 ^ n → m * 10 ^ n < 2 ^ 63 →
        to_isc_int (m * 10 ^ n) ⟨(n : Int), .sqlInt64, 0, 0⟩ 0 =
          .ok (.w64 (swrap 64 m))) := by
  refine ⟨decValue_formatDecimal, ?_, from_isc_float_int_neg, from_isc_float_int_nonneg,
    ?_, ?_⟩
  · intro x sc hsc
    obtain ⟨A, B, hEq, _, _, _, hBlen, _⟩ := formatDecimal_neg_shape x sc hsc
    exact ⟨A, B, hEq, hBlen⟩
  · intro m n hn
    rw [to_isc_double_int64 _ _ _ _ _ (by omega)]
    have e1 : (-((-(n : Int)) + 0)).toNat = n := by omega
    have e2 : (((-(n : Int)) + 0)).toNat = 0 := by omega
    rw [e1, e2]
    have hcast : (((10 : Int) ^ n : Int) : ℚ) = (10 : ℚ) ^ n := by push_cast; ring
    have hcast0 : (((10 : Int) ^ 0 : Int) : ℚ) = 1 := by norm_num
    rw [hcast, hcast0, div_one]
    have hv : (m : ℚ) / 10 ^ n * (10 : ℚ) ^ n = (m : ℚ) := by
      field_simp
    rw [hv, truncQ_roundForIscQ_int]
  · intro m n h1 h2
    rw [to_isc_int_int64]
    have e1 : (-((n : Int) + 0)).toNat = 0 := by omega
    have e2 : (((n : Int) + 0)).toNat = n := by omega
    rw [e1, e2, pow_zero, mul_one]
    rw [swrap_eq_self (by norm_num) h1 h2]
    rw [Int.mul_tdiv_cancel m (by positivity)]

/-- C1 witness: concrete instances of the amended convention at scale -2:
formatting 1234 gives the value twelve point three four, decoding stored
1234 from an SQL_LONG slot of scale -2 divides by one hundred, and
encoding two point three five into an SQL_INT64 slot of scale -2 stores
235. -/
theorem c1_scale_convention_witness :
    decValue (formatDecimal 1234 (-(2 : Int))) = ((1234 : Int) : ℚ) * 10 ^ (-(2 : Int)) ∧
    from_isc_float ⟨-(2 : Int), .sqlLong, 1234, 0⟩ =
      .ok (((1234 : Int) : ℚ) / 10 ^ ((-(-(2 : Int))).toNat)) ∧
    to_isc_double (((235 : Int) : ℚ) / 10 ^ (2 : Nat)) ⟨-((2 : Nat) : Int), .sqlInt64, 0, 0⟩ 0 =
      .ok (.w64 (swrap 64 235)) := by
  refine ⟨c1_scale_convention.1 1234 (-2), ?_, ?_⟩
  · exact c1_scale_convention.2.2.1 (-2) .sqlLong 1234 0 (by decide) (by decide)
  · exact c1_scale_convention.2.2.2.2.1 235 2 (by decide)

/-- C3 counterexample: with the 64-bit signed accumulator, parsing the
text 23058430092136939520 wraps at its final digit (the exact accumulator
value reaches two to the 63) yet the monotonicity test does not fire:
parsing succeeds and returns the wrapped value two to the 62 instead of
failing with an overflow error at that character. -/
theorem c3_overflow_detection_cex :
    (str2decS 64 ("2305843009213693952".toList)).out = 2305843009213693952 ∧
    (str2decS 64 ("2305843009213693952".toList)).rest = [] ∧
    2 ^ 63 ≤ (2305843009213693952 : Int) * 10 + dval '0' * 1 ∧
    swrap 64 ((2305843009213693952 : Int) * 10 + dval '0' * 1) ≠
      (2305843009213693952 : Int) * 10 + dval '0' * 1 ∧
    (str2decS 64 ("23058430092136939520".toList)).rest = [] ∧
    (str2decS 64 ("23058430092136939520".toList)).out = 4611686018427387904 := by
  decide

/-- C3 (amended): a digit-accumulation step fails exactly by the
monotonicity test: with a positive sign, when the wrapped accumulator
falls below its previous value the loop returns at that character, and
symmetrically with a negative sign when it rises above it (this catches a
wraparound only when the wrapped value moves against the sign direction;
some wraparounds pass the test unnoticed); parse_decimal attempts the
unsigned accumulator first, then the signed one, and reports failure to
the caller exactly when both attempts stop before the end of the text. -/
theorem c3_overflow_detection :
    (∀ (wrapF : Int → Int) (c : Char) (cs : List Char) (out sc : Int) (p : Bool),
      c ≠ '.' → ¬(dval c < 0 ∨ 9 < dval c) →
      wrapF (out * 10 + dval c * 1) < out →
      str2decGo wrapF 1 (c :: cs) out sc p = ⟨out, sc, c :: cs⟩) ∧
    (∀ (wrapF : Int → Int) (c : Char) (cs : List Char) (out sc : Int) (p : Bool),
      c ≠ '.' → ¬(dval c < 0 ∨ 9 < dval c) →
      wrapF (out * 10 + dval c * (-1)) > out →
      str2decGo wrapF (-1) (c :: cs) out sc p = ⟨out, sc, c :: cs⟩) ∧
    (∀ (w : Nat) (s : List Char),
      parse_decimal w s = .error .couldNotParseDecimal ↔
        (str2decU w s).rest ≠ [] ∧ (str2decS w s).rest ≠ []) ∧
    (∀ (w : Nat) (s : List Char), (str2decU w s).rest = [] →
      parse_decimal w s = .ok (swrap w (str2decU w s).out, (str2decU w s).scale)) ∧
    (∀ (w : Nat) (s : List Char), (str2decU w s).rest ≠ [] → (str2decS w s).rest = [] →
      parse_decimal w s = .ok ((str2decS w s).out, (str2decS w s).scale)) := by
  refine ⟨?_, ?_, ?_, ?_, ?_⟩
  · intro wrapF c cs out sc p hc hd hlt
    simp only [str2decGo, if_neg hc, if_neg hd, if_pos (rfl : (1 : Int) = 1), if_pos hlt]
    simp
  · intro wrapF c cs out sc p hc hd hgt
    simp only [str2decGo, if_neg hc, if_neg hd,
      if_neg (show ¬((-1 : Int) = 1) by decide), if_pos hgt]
  · intro w s
    simp only [parse_decimal]
    by_cases h1 : (str2decU w s).rest = []
    · rw [if_pos h1]
      constructor
      · intro h
        simp at h
      · rintro ⟨ha, -⟩
        exact absurd h1 ha
    · rw [if_neg h1]
      by_cases h2 : (str2decS w s).rest = []
      · rw [if_pos h2]
        constructor
        · intro h
          simp at h
        · rintro ⟨-, hb⟩
          exact absurd h2 hb
      · rw [if_neg h2]
        exact ⟨fun _ => ⟨h1, h2⟩, fun _ => rfl⟩
  · intro w s h1
    simp only [parse_decimal]
    rw [if_pos h1]
  · intro w s h1 h2
    simp only [parse_decimal]
    rw [if_neg h1, if_pos h2]

/-- C3 witness: the monotonicity test fires at width 4 for accumulator 7
and digit 9 (the wrapped value is negative one), and parse_decimal
succeeds through its first, unsigned attempt on the text 12.34. -/
theorem c3_overflow_witness :
    str2decGo (swrap 4) 1 ('9' :: []) 7 0 false = ⟨7, 0, '9' :: []⟩ ∧
    parse_decimal 64 ("12.34".toList) =
      .ok (swrap 64 (str2decU 64 ("12.34".toList)).out, (str2decU 64 ("12.34".toList)).scale) :=
  ⟨c3_overflow_detection.1 (swrap 4) '9' [] 7 0 false (by decide) (by decide) (by decide),
   c3_overflow_detection.2.2.2.1 64 ("12.34".toList) (by decide)⟩

/-- C4 counterexample: the claim demands the fractional-to-integral
rejection exactly when the source type is integral, the destination an
exact integer type and the effective scale nonnegative; to_isc on the
integral source 5 into an SQL_LONG slot of scale 0 raises no error and
writes 5. -/
theorem c4_to_isc_integral_check_cex :
    to_isc_int 5 ⟨0, .sqlLong, 0, 0⟩ 0 = .ok (.w32 5) := by rfl

/-- C4 (amended): to_isc throws the fractional-to-integral rejection
(cond_to_isc checkInteger) exactly when the source type is NOT integral
(the double instantiation), the effective scale (slot scale plus extra
scale) is nonnegative, and the destination tag is an exact integer type;
the integral instantiation never raises it, and in all other cases the
check passes. -/
theorem c4_to_isc_integral_check (var : XSQLVAR) (xs : Int) (v : Int) (q : ℚ) :
    isNonIntegralErr (to_isc_int v var xs) = false ∧
      (isNonIntegralErr (to_isc_double q var xs) = true ↔
        (0 ≤ var.sqlscale + xs ∧ isExactIntType var.sqltype = true)) := by
  rcases var with ⟨sc, ty, d, f⟩
  constructor
  · cases ty <;> rfl
  · constructor
    · intro h
      by_cases hcond : 0 ≤ (XSQLVAR.mk sc ty d f).sqlscale + xs ∧
          isExactIntType (XSQLVAR.mk sc ty d f).sqltype = true
      · exact hcond
      · exfalso
        simp only [to_isc_double] at h
        rw [if_neg hcond] at h
        cases ty <;> simp [isNonIntegralErr] at h
    · intro hcond
      simp only [to_isc_double]
      rw [if_pos hcond]
      rfl

/-- C5: for every decode where the slot scale is negative, from_isc at an
exact-integer target type fails with the fractional-to-integral error
before the slot data is read (the result does not depend on the stored
data), while from_isc at the floating target type never raises that
error. -/
theorem c5_from_isc_fractional_check :
    (∀ (sc : Int) (ty : SQLType) (d : Int) (f : ℚ), sc < 0 →
        from_isc_int ⟨sc, ty, d, f⟩ = .error (.fracToIntegral sc)) ∧
    (∀ (var : XSQLVAR), isFracErrQ (from_isc_float var) = false) := by
  constructor
  · intro sc ty d f hsc
    simp only [from_isc_int]
    rw [if_pos hsc]
  · intro var
    rcases var with ⟨sc, ty, d, f⟩
    cases ty <;> simp [from_isc_float, isFracErrQ]

/-- C5 witness: an SQL_LONG slot of scale -2 decodes to the
fractional-to-integral error at an integral target type (whatever the
stored data) and to no such error at the floating target type. -/
theorem c5_from_isc_fractional_check_witness :
    from_isc_int ⟨-2, .sqlLong, 1234, 0⟩ = .error (.fracToIntegral (-2)) ∧
    isFracErrQ (from_isc_float ⟨-2, .sqlLong, 1234, 0⟩) = false :=
  ⟨c5_from_isc_fractional_check.1 (-2) .sqlLong 1234 0 (by decide),
   c5_from_isc_fractional_check.2 ⟨-2, .sqlLong, 1234, 0⟩⟩

/-- C6: encoding rounds ties away from zero: for an SQL_LONG slot of scale
-2, a nonnegative value has one half added and a negative value one half
subtracted before truncation toward zero, so encoding 2.345 stores the
integer 235 (not 234) and encoding -2.345 stores -235. -/
theorem c6_round_ties_away :
    (∀ v : ℚ, 0 ≤ v → to_isc_double v ⟨-2, .sqlLong, 0, 0⟩ 0 =
        .ok (.w32 (swrap 32 ⌊v * 100 + 1/2⌋))) ∧
    (∀ v : ℚ, v < 0 → to_isc_double v ⟨-2, .sqlLong, 0, 0⟩ 0 =
        .ok (.w32 (swrap 32 ⌈v * 100 - 1/2⌉))) ∧
    to_isc_double ((2345 : ℚ) / 1000) ⟨-2, .sqlLong, 0, 0⟩ 0 = .ok (.w32 235) ∧
    to_isc_double (-(2345 : ℚ) / 1000) ⟨-2, .sqlLong, 0, 0⟩ 0 = .ok (.w32 (-235)) := by
  have hred : ∀ v : ℚ, to_isc_double v ⟨-2, .sqlLong, 0, 0⟩ 0 =
      .ok (.w32 (swrap 32 (truncQ (roundForIscQ (v * 100))))) := by
    intro v
    rw [to_isc_double_long v (-2) 0 0 0 (by norm_num)]
    have e1 : ((10 : Int) ^ (-((-2 : Int) + 0)).toNat : Int) = 100 := by decide
    have e2 : ((10 : Int) ^ (((-2 : Int) + 0)).toNat : Int) = 1 := by decide
    rw [e1, e2]
    have e3 : (((100 : Int)) : ℚ) = 100 := by norm_num
    have e4 : (((1 : Int)) : ℚ) = 1 := by norm_num
    rw [e3, e4, div_one]
  have hpos : ∀ v : ℚ, 0 ≤ v → to_isc_double v ⟨-2, .sqlLong, 0, 0⟩ 0 =
      .ok (.w32 (swrap 32 ⌊v * 100 + 1/2⌋)) := by
    intro v hv
    rw [hred v]
    have hnn : ¬(v * 100 < 0) := by
      push_neg
      have := mul_nonneg hv (show (0 : ℚ) ≤ 100 by norm_num)
      linarith
    rw [roundForIscQ, if_neg hnn, truncQ, if_neg (by
      push_neg at hnn ⊢
      linarith)]
  have hneg : ∀ v : ℚ, v < 0 → to_isc_double v ⟨-2, .sqlLong, 0, 0⟩ 0 =
      .ok (.w32 (swrap 32 ⌈v * 100 - 1/2⌉)) := by
    intro v hv
    rw [hred v]
    have hlt : v * 100 < 0 := mul_neg_of_neg_of_pos hv (by norm_num)
    rw [roundForIscQ, if_pos hlt, truncQ, if_pos (by linarith)]
  refine ⟨hpos, hneg, ?_, ?_⟩
  · rw [hpos ((2345 : ℚ) / 1000) (by norm_num)]
    have e : (2345 : ℚ) / 1000 * 100 + 1/2 = 235 := by norm_num
    rw [e]
    have ef : ⌊(235 : ℚ)⌋ = 235 := by norm_num
    rw [ef]
    have es : swrap 32 235 = 235 := by decide
    rw [es]
  · rw [hneg (-(2345 : ℚ) / 1000) (by norm_num)]
    have e : -(2345 : ℚ) / 1000 * 100 - 1/2 = -235 := by norm_num
    rw [e]
    have ef : ⌈(-235 : ℚ)⌉ = -235 := by
      rw [show (-235 : ℚ) = ((-235 : Int) : ℚ) by norm_num, Int.ceil_intCast]
    rw [ef]
    have es : swrap 32 (-235) = -235 := by decide
    rw [es]

/-- C6 witness: the tie-free instance two encodes to 200 through the
half-up path. -/
theorem c6_round_ties_away_witness :
    to_isc_double 2 ⟨-2, .sqlLong, 0, 0⟩ 0 = .ok (.w32 (swrap 32 ⌊(2 : ℚ) * 100 + 1/2⌋)) :=
  c6_round_ties_away.1 2 (by norm_num)

/-- C10: decimal parsing accepts digitless inputs: the empty string, a
bare plus, a bare minus and a bare decimal point each parse successfully
with magnitude 0 and scale 0, both in a single str2dec run and through
parse_decimal, instead of reporting a malformed-number error. -/
theorem c10_digitless_inputs_accepted :
    str2decS 64 [] = ⟨0, 0, []⟩ ∧ str2decS 64 ['+'] = ⟨0, 0, []⟩ ∧
    str2decS 64 ['-'] = ⟨0, 0, []⟩ ∧ str2decS 64 ['.'] = ⟨0, 0, []⟩ ∧
    parse_decimal 64 [] = .ok (0, 0) ∧ parse_decimal 64 ['+'] = .ok (0, 0) ∧
    parse_decimal 64 ['-'] = .ok (0, 0) ∧ parse_decimal 64 ['.'] = .ok (0, 0) := by
  refine ⟨by decide, by decide, by decide, by decide, by rfl, by rfl, by rfl, by rfl⟩

/-- C2 witness: the text -12.34 parses completely at width 64 and its
format_decimal rendering at the corresponding slot scale has the same
value. -/
theorem c2_str2dec_format_roundtrip_witness :
    (str2decS 64 ("-12.34".toList)).rest = [] ∧
      decValue (formatDecimal (str2decS 64 ("-12.34".toList)).out
        (-(str2decS 64 ("-12.34".toList)).scale)) = decValue ("-12.34".toList) :=
  c2_str2dec_format_roundtrip 64 (by decide) ("-12.34".toList) (by decide) (by decide)

/-- The element loop of pre_use pushes, in order, one entry per index up
to the first index at which an exception fires (null-indicated indices
push the NULL marker and throw nothing), and it completes without an
exception exactly when no index fires one. -/
theorem preUseGo_spec (isNull alloc : Nat → Bool) (render : Nat → List Char) :
    ∀ l : List Nat,
      (preUseGo isNull alloc render l).2 =
        (l.takeWhile (fun i => isNull i || alloc i)).map (poolEntryAt isNull render) ∧
      ((preUseGo isNull alloc render l).1 = false ↔
        l.all (fun i => isNull i || alloc i) = true) := by
  intro l
  induction l with
  | nil => exact ⟨rfl, by simp [preUseGo]⟩
  | cons i is ih =>
    obtain ⟨ih1, ih2⟩ := ih
    by_cases hn : isNull i = true
    · have hstep : preUseGo isNull alloc render (i :: is) =
          ((preUseGo isNull alloc render is).1,
            .nullMarker :: (preUseGo isNull alloc render is).2) := by
        simp only [preUseGo]
        rw [if_pos hn]
      constructor
      · rw [hstep, List.takeWhile_cons_of_pos (by simp [hn]), List.map_cons, ← ih1,
          poolEntryAt, if_pos hn]
      · rw [hstep]
        simp only [List.all_cons]
        rw [show (isNull i || alloc i) = true by simp [hn]]
        simpa using ih2
    · by_cases ha : alloc i = true
      · have hstep : preUseGo isNull alloc render (i :: is) =
            ((preUseGo isNull alloc render is).1,
              .buffer i (render i) :: (preUseGo isNull alloc render is).2) := by
          simp only [preUseGo]
          rw [if_neg hn, if_pos ha]
        constructor
        · rw [hstep, List.takeWhile_cons_of_pos (by simp [hn, ha]), List.map_cons, ← ih1,
            poolEntryAt, if_neg hn]
        · rw [hstep]
          simp only [List.all_cons]
          rw [show (isNull i || alloc i) = true by simp [hn, ha]]
          simpa using ih2
      · have hstep : preUseGo isNull alloc render (i :: is) = (true, []) := by
          simp only [preUseGo]
          rw [if_neg hn, if_neg ha]
        constructor
        · rw [hstep, List.takeWhile_cons_of_neg (by simp [hn, ha])]
          rfl
        · rw [hstep]
          simp [hn, ha]

/-- The deletions of clean_up on a pool built by the element loop release
exactly the indices whose elements were actually allocated. -/
theorem cleanUpFreed_map_poolEntryAt (isNull : Nat → Bool) (render : Nat → List Char) :
    ∀ l : List Nat, cleanUpFreed (l.map (poolEntryAt isNull render)) =
      l.filter (fun i => !isNull i) := by
  intro l
  induction l with
  | nil => rfl
  | cons i is ih =>
    by_cases hn : isNull i = true
    · rw [List.map_cons, poolEntryAt, if_pos hn]
      rw [List.filter_cons_of_neg (by simp [hn])]
      exact ih
    · rw [List.map_cons, poolEntryAt, if_neg hn]
      rw [List.filter_cons_of_pos (by simp [hn])]
      exact congrArg (fun t => i :: t) ih

/-- C7: for every bulk encode whose effective upper bound (the range end
when set and nonzero, else the length captured at bind time) stays within
the half-open range discipline and the bound vector, pre_use throws
nothing, appends exactly one pool entry per index of [begin, vend) in
index order — the NULL marker for a null-indicated element, otherwise a
fresh buffer with the rendered element text — and in particular begin 2,
end 5 over the vector [10, 20, 30, 40, 50] produces exactly the three
buffers 30, 40, 50 in that order. -/
theorem c7_pre_use_buffers {α : Type} [Inhabited α] (st : PGVecState α)
    (render : α → List Char) (ind : Option (Nat → Bool))
    (_hbe : st.begin_ ≤ resolvedEnd st.endPtr st.end_var_)
    (_hlen : resolvedEnd st.endPtr st.end_var_ ≤ st.data.length) :
    (preUse st render ind (fun _ => true) []).1 = false ∧
    (preUse st render ind (fun _ => true) []).2.length =
      resolvedEnd st.endPtr st.end_var_ - st.begin_ ∧
    (preUse st render ind (fun _ => true) []).2 =
      (List.range' st.begin_ (resolvedEnd st.endPtr st.end_var_ - st.begin_)).map
        (poolEntryAt (isNullAt ind) (fun i => render (st.data.getD i default))) ∧
    (∀ j, j < resolvedEnd st.endPtr st.end_var_ - st.begin_ →
      (preUse st render ind (fun _ => true) []).2.getD j .nullMarker =
        if isNullAt ind (st.begin_ + j) then .nullMarker
        else .buffer (st.begin_ + j) (render (st.data.getD (st.begin_ + j) default))) ∧
    preUse (⟨[10, 20, 30, 40, 50], 2, some 5, 5⟩ : PGVecState Int) renderInt none
        (fun _ => true) [] =
      (false, [.buffer 2 ['3', '0'], .buffer 3 ['4', '0'], .buffer 4 ['5', '0']]) := by
  have htw : ∀ l : List Nat, l.takeWhile (fun i => isNullAt ind i || true) = l := by
    intro l
    induction l with
    | nil => rfl
    | cons a as ih => rw [List.takeWhile_cons_of_pos (by simp), ih]
  obtain ⟨h2, h1⟩ := preUseGo_spec (isNullAt ind) (fun _ => true)
    (fun i => render (st.data.getD i default))
    (List.range' st.begin_ (resolvedEnd st.endPtr st.end_var_ - st.begin_))
  have hmap : (preUse st render ind (fun _ => true) []).2 =
      (List.range' st.begin_ (resolvedEnd st.endPtr st.end_var_ - st.begin_)).map
        (poolEntryAt (isNullAt ind) (fun i => render (st.data.getD i default))) := by
    show (preUseGo (isNullAt ind) (fun _ => true)
        (fun i => render (st.data.getD i default))
        (List.range' st.begin_ (resolvedEnd st.endPtr st.end_var_ - st.begin_))).2 = _
    rw [h2, htw]
  refine ⟨?_, ?_, hmap, ?_, by decide⟩
  · show (preUseGo (isNullAt ind) (fun _ => true)
        (fun i => render (st.data.getD i default))
        (List.range' st.begin_ (resolvedEnd st.endPtr st.end_var_ - st.begin_))).1 = false
    rw [h1]
    simp
  · rw [hmap, List.length_map, List.length_range']
  · intro j hj
    rw [hmap]
    have hjlen : j < ((List.range' st.begin_
        (resolvedEnd st.endPtr st.end_var_ - st.begin_)).map
          (poolEntryAt (isNullAt ind) (fun i => render (st.data.getD i default)))).length := by
      rw [List.length_map, List.length_range']
      exact hj
    rw [List.getD_eq_getElem _ _ hjlen, List.getElem_map, List.getElem_range']
    rw [poolEntryAt]
    have e : st.begin_ + 1 * j = st.begin_ + j := by omega
    rw [e]

/-- C7 witness: for the example state the pool has exactly the extent of
the resolved range. -/
theorem c7_pre_use_buffers_witness :
    (preUse (⟨[10, 20, 30, 40, 50], 2, some 5, 5⟩ : PGVecState Int) renderInt none
        (fun _ => true) []).2.length = resolvedEnd (some 5) 5 - 2 :=
  (c7_pre_use_buffers (⟨[10, 20, 30, 40, 50], 2, some 5, 5⟩ : PGVecState Int) renderInt
    none (by decide) (by decide)).2.1

/-- C8 counterexample: with the range end unset, begin 2 and a 5-element
vector bound at captured length 5, size() returns the captured natural
length 5 and not the minimum of the range extent (3, binding through the
natural end from begin 2) and the natural length, as the claim states. -/
theorem c8_size_cex :
    pgSize (⟨List.replicate 5 (0 : Int), 2, none, 5⟩ : PGVecState Int) = 5 ∧
    min (resolvedEnd none 5 - 2) (List.replicate 5 (0 : Int)).length = 3 ∧
    (5 : Nat) ≠ 3 := by decide

/-- C8 (amended): size() recomputes the current natural length on every
call; when it differs from the captured end_var_ the current length is
returned (a vector bound at captured length 5 that has grown to 8 makes
size() return 8); otherwise size() returns the range extent end minus
begin when the end pointer is set and nonzero, else the captured natural
length end_var_ itself (not the minimum of extent and natural length). -/
theorem c8_size {α : Type} (st : PGVecState α) :
    (st.data.length ≠ st.end_var_ → pgSize st = st.data.length) ∧
    (st.data.length = st.end_var_ →
      ∀ e, st.endPtr = some e → e ≠ 0 → pgSize st = e - st.begin_) ∧
    (st.data.length = st.end_var_ → (st.endPtr = none ∨ st.endPtr = some 0) →
      pgSize st = st.end_var_) ∧
    pgSize (⟨List.replicate 8 (0 : Int), 0, some 5, 5⟩ : PGVecState Int) = 8 := by
  refine ⟨?_, ?_, ?_, by decide⟩
  · intro h
    simp only [pgSize, pgFullSize]
    rw [if_pos h]
  · intro h e he hne
    simp only [pgSize, pgFullSize]
    rw [if_neg (fun hh => hh h), he]
    show (if e ≠ 0 then e - st.begin_ else st.end_var_) = e - st.begin_
    rw [if_pos hne]
  · intro h hd
    simp only [pgSize, pgFullSize]
    rw [if_neg (fun hh => hh h)]
    rcases hd with hd | hd
    · rw [hd]
    · rw [hd]
      show (if (0 : Nat) ≠ 0 then 0 - st.begin_ else st.end_var_) = st.end_var_
      rw [if_neg (by decide)]

/-- C8 witness: a vector grown to 8 behind a capture of 5 makes size()
return the current length 8. -/
theorem c8_size_witness :
    pgSize (⟨List.replicate 8 (0 : Int), 0, some 5, 5⟩ : PGVecState Int) =
      (List.replicate 8 (0 : Int)).length :=
  (c8_size (⟨List.replicate 8 (0 : Int), 0, some 5, 5⟩ : PGVecState Int)).1 (by decide)

/-- C9: clean_up performs one delete per tracked pool entry,
unconditionally; on the pool left by an element loop that aborted partway
through a duplicate-free index range, the freed buffers are exactly the
allocations made before the failure point, each freed exactly once (no
leak, no double free); in the spec scenario of a failure at the third of
five elements the two buffers allocated so far are still tracked and are
freed. -/
theorem c9_clean_up_frees_exactly (isNull alloc : Nat → Bool) (render : Nat → List Char)
    (b n : Nat) :
    (cleanUpDeletes (preUseGo isNull alloc render (List.range' b n)).2).length =
      (preUseGo isNull alloc render (List.range' b n)).2.length ∧
    (preUseGo isNull alloc render (List.range' b n)).2 =
      ((List.range' b n).takeWhile (fun i => isNull i || alloc i)).map
        (poolEntryAt isNull render) ∧
    cleanUpFreed (preUseGo isNull alloc render (List.range' b n)).2 =
      ((List.range' b n).takeWhile (fun i => isNull i || alloc i)).filter
        (fun i => !isNull i) ∧
    (cleanUpFreed (preUseGo isNull alloc render (List.range' b n)).2).Nodup ∧
    cleanUpFreed (preUseGo (fun _ => false) (fun i => !decide (i = 2))
        (fun _ => ['x']) (List.range' 0 5)).2 = [0, 1] := by
  obtain ⟨h2, _⟩ := preUseGo_spec isNull alloc render (List.range' b n)
  have hfreed : cleanUpFreed (preUseGo isNull alloc render (List.range' b n)).2 =
      ((List.range' b n).takeWhile (fun i => isNull i || alloc i)).filter
        (fun i => !isNull i) := by
    rw [h2, cleanUpFreed_map_poolEntryAt]
  refine ⟨?_, h2, hfreed, ?_, by decide⟩
  · rw [cleanUpDeletes, List.length_map]
  · rw [hfreed]
    exact ((List.filter_sublist _).trans
      (List.takeWhile_prefix _).sublist).nodup (List.nodup_range' _ _)
